import Mathlib

/-!
A verification development for a tabular reinforcement-learning
Tic-Tac-Toe program.  The definitions below are a shallow embedding of
the program's board logic (`Board.py`), its agents (`Agents.py`), the
episode driver (`game_manager.py`) and the trainer configuration
(`trainer.py`).  Machine randomness (`random.uniform`, `random.choice`)
is modelled by explicit parameters: a drawn rational `u` for
`random.uniform(0, 1)` and a natural index `k` that selects a position
in the list handed to `random.choice` (a uniformly distributed `k`
yields the uniform choice of the source).  Python floats are modelled
by rationals.
-/

/-- A board state: 9 cells in row-major order, `0` = empty,
`1` = PlayerA (X), `-1` = PlayerB (O), mirroring the numpy array
`self.state` / `self.board`. -/
abbrev BoardState := List Int

/-- `Board.available_moves` and the driver's identical comprehension
`[i for i, v in enumerate(board) if v == 0]`: the indices of the empty
cells, in increasing order. -/
def availableMoves (s : BoardState) : List Nat :=
  (List.range s.length).filter (fun i => s.getD i 0 == 0)

/-- The 8 winning lines in the order the numpy code assembles them:
the 3 rows, the 3 columns, the main diagonal, the anti-diagonal. -/
def linesList : List (List Nat) :=
  [[0,1,2],[3,4,5],[6,7,8],[0,3,6],[1,4,7],[2,5,8],[0,4,8],[2,4,6]]

/-- `np.all(line == p)` for one line of cell indices. -/
def lineAll (s : BoardState) (l : List Nat) (p : Int) : Bool :=
  l.all (fun i => s.getD i 0 == p)

/-- The scanning loop of `check_winner`: the first complete line in
`linesList` order decides, all-PlayerA tested before all-PlayerB on each
line. -/
def scanLines (s : BoardState) : List (List Nat) → Option Int
  | [] => none
  | l :: ls =>
    if lineAll s l 1 then some 1
    else if lineAll s l (-1) then some (-1)
    else scanLines s ls

/-- Some line of the board is entirely marked with `p`. -/
def hasLine (s : BoardState) (p : Int) : Bool :=
  linesList.any (fun l => lineAll s l p)

/-- `Board.check_winner` / `GameManager.check_winner`: `some 1` if X
wins, `some (-1)` if O wins, `some 0` on a draw (`0 not in state`),
`none` while the game is ongoing. -/
def check_winner (s : BoardState) : Option Int :=
  match scanLines s linesList with
  | some v => some v
  | none => if s.contains 0 then none else some 0

/-- The `Board` object: cell array plus the player whose turn it is. -/
structure Board where
  state : BoardState
  current_player : Int
deriving DecidableEq

/-- `Board.reset`: all-empty board, PlayerA (`1`) to move. -/
def Board.reset : Board := ⟨List.replicate 9 0, 1⟩

/-- `Board.available_moves` as a method of the object. -/
def Board.available_moves (b : Board) : List Nat := availableMoves b.state

/-- `Board.make_move`: the result is (raised error, post-call board).
The occupied-cell check precedes any mutation, so on the error path the
board is returned exactly as it was; on success the cell receives
`current_player` and the turn switches (`current_player *= -1`). -/
def Board.make_move (b : Board) (move : Nat) : Option String × Board :=
  if b.state.getD move 0 != 0 then
    (some "Invalid move: cell already occupied.", b)
  else
    (none, ⟨b.state.set move b.current_player, -b.current_player⟩)

/-- `get_state_key` turns the numpy state into a tuple; keys are the
state as given. -/
abbrev StateKey := List Int

abbrev QKey := StateKey × Nat

/-- The Python dict `q_table`, which the program observes only through
`q_table.get(key, 0)` and item assignment: modelled by its lookup
function with default value 0. -/
abbrev QTable := QKey → ℚ

def qget (t : QTable) (k : QKey) : ℚ := t k

def qset (t : QTable) (k : QKey) (v : ℚ) : QTable := Function.update t k v

/-- `self.q_table = {}`. -/
def emptyQTable : QTable := fun _ => 0

/-- Python `max` over a list (the `[]` case never arises in the source,
where Python `max` would raise). -/
def maxList : List ℚ → ℚ
  | [] => 0
  | x :: xs => xs.foldl max x

/-- `random.choice(l)`, the drawn position supplied as `k`
(uniform `k` modulo `l.length` models the uniform draw). -/
def randChoice (l : List Nat) (k : Nat) : Nat := l.getD (k % l.length) 0

/-- `q_values = [self.q_table.get((state_key, a), 0) for a in available_moves]`. -/
def qValues (t : QTable) (skey : StateKey) (avail : List Nat) : List ℚ :=
  avail.map (fun a => qget t (skey, a))

/-- `best_actions = [a for a, q in zip(available_moves, q_values) if q == max_q]`. -/
def bestActions (t : QTable) (skey : StateKey) (avail : List Nat) : List Nat :=
  ((avail.zip (qValues t skey avail)).filter
    (fun p => p.2 == maxList (qValues t skey avail))).map Prod.fst

/-- `choose_action`, identical in `QLearningAgent` and `SARSAAgent`:
with probability epsilon (only while `training`) a uniform legal move,
otherwise a uniform choice among the legal moves of maximal table
value.  `u` is the value drawn by `random.uniform(0, 1)`, `k` drives
`random.choice`. -/
def chooseAction (t : QTable) (epsilon : ℚ) (skey : StateKey) (avail : List Nat)
    (training : Bool) (u : ℚ) (k : Nat) : Nat :=
  if training = true ∧ u < epsilon then randChoice avail k
  else randChoice (bestActions t skey avail) k

/-- The `QLearningAgent` object. -/
structure QLearningAgent where
  q_table : QTable
  alpha : ℚ
  gamma : ℚ
  epsilon : ℚ

/-- `QLearningAgent.__init__`: the source performs no parameter
validation and construction can never fail, hence always `.ok`. -/
def QLearningAgent.init (alpha gamma epsilon : ℚ) : Except String QLearningAgent :=
  .ok ⟨emptyQTable, alpha, gamma, epsilon⟩

def QLearningAgent.choose_action (ag : QLearningAgent) (skey : StateKey)
    (avail : List Nat) (training : Bool) (u : ℚ) (k : Nat) : Nat :=
  chooseAction ag.q_table ag.epsilon skey avail training u k

/-- `QLearningAgent.update`: off-policy target.  `future_qs` ranges
over all nine cell indices 0–8 of `next_state`, legal or not. -/
def QLearningAgent.update (ag : QLearningAgent) (state : StateKey) (action : Nat)
    (reward : ℚ) (next_state : StateKey) (done : Bool) : QLearningAgent :=
  let old_value := qget ag.q_table (state, action)
  let target :=
    if done then reward
    else reward + ag.gamma * maxList ((List.range 9).map (fun a => qget ag.q_table (next_state, a)))
  { ag with q_table := qset ag.q_table (state, action) (old_value + ag.alpha * (target - old_value)) }

/-- The `SARSAAgent` object. -/
structure SARSAAgent where
  q_table : QTable
  alpha : ℚ
  gamma : ℚ
  epsilon : ℚ

/-- `SARSAAgent.__init__`: again no validation, never fails. -/
def SARSAAgent.init (alpha gamma epsilon : ℚ) : Except String SARSAAgent :=
  .ok ⟨emptyQTable, alpha, gamma, epsilon⟩

def SARSAAgent.choose_action (ag : SARSAAgent) (skey : StateKey)
    (avail : List Nat) (training : Bool) (u : ℚ) (k : Nat) : Nat :=
  chooseAction ag.q_table ag.epsilon skey avail training u k

/-- `SARSAAgent.update`: on-policy target bootstrapping off the
supplied `next_action`. -/
def SARSAAgent.update (ag : SARSAAgent) (state : StateKey) (action : Nat)
    (reward : ℚ) (next_state : StateKey) (next_action : Nat) (done : Bool) : SARSAAgent :=
  let old_value := qget ag.q_table (state, action)
  let next_value := qget ag.q_table (next_state, next_action)
  let target := if done then reward else reward + ag.gamma * next_value
  { ag with q_table := qset ag.q_table (state, action) (old_value + ag.alpha * (target - old_value)) }

/-- The reward computation of `GameManager.play_game` (lines
"Calculate rewards"): the source sets `done = winner is not None` and
branches on the winner; both are folded into one match on the winner
option.  First component: reward to X (the mover when
`current_player == 1`); second: reward to O. -/
def stepRewards (winner : Option Int) : ℚ × ℚ :=
  match winner with
  | none => (0, 0)
  | some w => if w = 0 then (1/2, 1/2) else if w = 1 then (1, -1) else (-1, 1)

/-- An agent slot of the driver, as far as the learning-update dispatch
is concerned: the `isinstance` tests distinguish exactly these three
shapes. -/
inductive AgentState where
  | qlearn (ag : QLearningAgent)
  | sarsa (ag : SARSAAgent)
  | nonlearning

/-- The learning-update block of `GameManager.play_game` (the
`if train:` block) for the agent that just moved; the
`current_player == 1` branch and the `else` branch are the same code
applied to the respective mover.  A `QLearningAgent` mover is updated
unconditionally; a `SARSAAgent` mover is updated only when
`not done` and `next_available` is non-empty, with a next action drawn
by its own `choose_action(..., training=True)` (randomness `u`, `k`). -/
def driverLearnStep (mover : AgentState) (state : StateKey) (action : Nat)
    (reward : ℚ) (next_state : StateKey) (done : Bool) (u : ℚ) (k : Nat) : AgentState :=
  match mover with
  | .qlearn ag => .qlearn (ag.update state action reward next_state done)
  | .sarsa ag =>
    if done then .sarsa ag
    else
      let next_available := availableMoves next_state
      if next_available.isEmpty then .sarsa ag
      else
        let next_action := ag.choose_action next_state next_available true u k
        .sarsa (ag.update state action reward next_state next_action done)
  | .nonlearning => .nonlearning

/-- The `Trainer` object (result counters and history omitted: they
start zeroed/empty and play no part in construction-time validation). -/
structure Trainer where
  agent_x : AgentState
  agent_o : AgentState
  episodes : Nat
  checkpoint_interval : Nat

/-- `Trainer.__init__`: stores its parameters unchecked; construction
never fails. -/
def Trainer.init (agent_x agent_o : AgentState) (episodes checkpoint_interval : Nat) :
    Except String Trainer :=
  .ok ⟨agent_x, agent_o, episodes, checkpoint_interval⟩

/-- The `while not done` loop of `GameManager.play_game`, abstracted
over the two agents' move choices.  `chooseX`/`chooseO` take the step
number — which subsumes the evolution of a learning agent's table and
its randomness during the game — the board and the available-move
list.  The learning updates in the loop body touch only agent tables,
never the board, the winner test or the loop guard, so they are
absorbed into the step-indexed choice functions.  `fuel` bounds the
iterations (the source loop is unbounded; the termination theorem
shows fuel 9 is never exhausted). -/
def playLoop (chooseX chooseO : Nat → BoardState → List Nat → Nat) :
    Nat → Nat → BoardState → Int → Option Int
  | 0, _, _, _ => none
  | fuel + 1, step, board, cp =>
    let action := (if cp = 1 then chooseX else chooseO) step board (availableMoves board)
    let board1 := board.set action cp
    match check_winner board1 with
    | some w => some w
    | none => playLoop chooseX chooseO fuel (step + 1) board1 (-cp)

/-- `GameManager.play_game`: fresh board (`reset_board`), X to move. -/
def play_game (chooseX chooseO : Nat → BoardState → List Nat → Nat) : Option Int :=
  playLoop chooseX chooseO 9 0 (List.replicate 9 0) 1

/-- An agent that always takes the first available move (used to
exhibit a concrete game). -/
def firstMoveChoice : Nat → BoardState → List Nat → Nat :=
  fun _ _ avail => avail.headD 0

/-- Cell `(i, j)` of the reshaped 3x3 board `b = state.reshape(3, 3)`. -/
def cellAt (s : BoardState) (i j : Nat) : Int := s.getD (3 * i + j) 0

def rowSum (s : BoardState) (i : Nat) : Int :=
  cellAt s i 0 + cellAt s i 1 + cellAt s i 2

def rowHasZero (s : BoardState) (i : Nat) : Bool :=
  cellAt s i 0 == 0 || cellAt s i 1 == 0 || cellAt s i 2 == 0

/-- `np.where(b[i] == 0)[0][0]`: first zero column of row `i`. -/
def rowFirstZero (s : BoardState) (i : Nat) : Nat :=
  if cellAt s i 0 == 0 then 0 else if cellAt s i 1 == 0 then 1 else 2

def colSum (s : BoardState) (i : Nat) : Int :=
  cellAt s 0 i + cellAt s 1 i + cellAt s 2 i

def colHasZero (s : BoardState) (i : Nat) : Bool :=
  cellAt s 0 i == 0 || cellAt s 1 i == 0 || cellAt s 2 i == 0

def colFirstZero (s : BoardState) (i : Nat) : Nat :=
  if cellAt s 0 i == 0 then 0 else if cellAt s 1 i == 0 then 1 else 2

def diagSum (s : BoardState) : Int := cellAt s 0 0 + cellAt s 1 1 + cellAt s 2 2

def diagHasZero (s : BoardState) : Bool :=
  cellAt s 0 0 == 0 || cellAt s 1 1 == 0 || cellAt s 2 2 == 0

def diagFirstZero (s : BoardState) : Nat :=
  if cellAt s 0 0 == 0 then 0 else if cellAt s 1 1 == 0 then 1 else 2

/-- Anti-diagonal `np.diag(np.fliplr(b)) = [b[0,2], b[1,1], b[2,0]]`. -/
def antiSum (s : BoardState) : Int := cellAt s 0 2 + cellAt s 1 1 + cellAt s 2 0

def antiHasZero (s : BoardState) : Bool :=
  cellAt s 0 2 == 0 || cellAt s 1 1 == 0 || cellAt s 2 0 == 0

def antiFirstZero (s : BoardState) : Nat :=
  if cellAt s 0 2 == 0 then 0 else if cellAt s 1 1 == 0 then 1 else 2

/-- One index `i` of the loop in `ScriptedAgent.can_win`: the row test
precedes the column test, returning the (row, col) of the empty cell
that completes a line holding two of `p`'s marks. -/
def canWinRC (s : BoardState) (p : Int) (i : Nat) : Option (Nat × Nat) :=
  if rowSum s i == 2 * p && rowHasZero s i then some (i, rowFirstZero s i)
  else if colSum s i == 2 * p && colHasZero s i then some (colFirstZero s i, i)
  else none

/-- `ScriptedAgent.can_win`: rows/columns for i = 0, 1, 2, then the main
diagonal, then the anti-diagonal; `none` when `p` cannot complete a
line. -/
def can_win (s : BoardState) (p : Int) : Option (Nat × Nat) :=
  match canWinRC s p 0 with
  | some m => some m
  | none =>
    match canWinRC s p 1 with
    | some m => some m
    | none =>
      match canWinRC s p 2 with
      | some m => some m
      | none =>
        if diagSum s == 2 * p && diagHasZero s then
          some (diagFirstZero s, diagFirstZero s)
        else if antiSum s == 2 * p && antiHasZero s then
          some (antiFirstZero s, 2 - antiFirstZero s)
        else none

/-- `ScriptedAgent.choose_action`: complete an own line (win), else
complete the opponent line (block), else centre if free, else a random
available move (`k` drives `random.choice`).  A found `(row, col)` is
returned as `row * 3 + col`. -/
def scripted_choose_action (s : BoardState) (available_moves : List Nat)
    (k : Nat) : Nat :=
  match can_win s 1 with
  | some m => m.1 * 3 + m.2
  | none =>
    match can_win s (-1) with
    | some m => m.1 * 3 + m.2
    | none =>
      if 4 ∈ available_moves then 4
      else randChoice available_moves k

/-! ### Helper lemmas about `maxList` (Python `max`) -/

lemma foldl_max_init_le : ∀ (l : List ℚ) (a : ℚ), a ≤ l.foldl max a := by
  intro l
  induction l with
  | nil => intro a; exact le_refl a
  | cons x xs ih =>
    intro a
    exact le_trans (le_max_left a x) (ih (max a x))

lemma foldl_max_mem_le : ∀ (l : List ℚ) (a y : ℚ), y ∈ l → y ≤ l.foldl max a := by
  intro l
  induction l with
  | nil => intro a y hy; cases hy
  | cons x xs ih =>
    intro a y hy
    rcases List.mem_cons.mp hy with h | h
    · subst h
      exact le_trans (le_max_right a y) (foldl_max_init_le xs (max a y))
    · exact ih (max a x) y h

lemma foldl_max_cases : ∀ (l : List ℚ) (a : ℚ), l.foldl max a = a ∨ l.foldl max a ∈ l := by
  intro l
  induction l with
  | nil => intro a; exact Or.inl rfl
  | cons x xs ih =>
    intro a
    rcases ih (max a x) with h | h
    · rcases max_choice a x with hm | hm
      · exact Or.inl (by rw [List.foldl_cons, h, hm])
      · refine Or.inr ?_
        rw [List.foldl_cons, h, hm]
        exact List.mem_cons_self x xs
    · exact Or.inr (List.mem_cons_of_mem x h)

lemma maxList_mem {l : List ℚ} (h : l ≠ []) : maxList l ∈ l := by
  cases l with
  | nil => exact absurd rfl h
  | cons x xs =>
    rcases foldl_max_cases xs x with h1 | h1
    · rw [maxList, h1]; exact List.mem_cons_self x xs
    · rw [maxList]; exact List.mem_cons_of_mem x h1

lemma le_maxList {l : List ℚ} {y : ℚ} (hy : y ∈ l) : y ≤ maxList l := by
  cases l with
  | nil => cases hy
  | cons x xs =>
    rcases List.mem_cons.mp hy with h | h
    · subst h; exact foldl_max_init_le xs y
    · exact foldl_max_mem_le xs x y h

/-! ### Helper lemmas about `randChoice` and `availableMoves` -/

lemma randChoice_mem {l : List Nat} (h : l ≠ []) (k : Nat) : randChoice l k ∈ l := by
  have hlen : 0 < l.length := List.length_pos.mpr h
  have hk : k % l.length < l.length := Nat.mod_lt k hlen
  rw [randChoice, List.getD_eq_getElem l 0 hk]
  exact List.getElem_mem hk

lemma randChoice_const {l : List Nat} {m : Nat} (h : l ≠ []) (hall : ∀ x ∈ l, x = m)
    (k : Nat) : randChoice l k = m :=
  hall _ (randChoice_mem h k)

lemma mem_availableMoves {s : BoardState} {i : Nat} :
    i ∈ availableMoves s ↔ i < s.length ∧ s.getD i 0 = 0 := by
  simp [availableMoves, List.mem_filter, List.mem_range]

lemma availableMoves_nonempty {s : BoardState} (h : s.contains 0 = true) :
    availableMoves s ≠ [] := by
  have h0 : (0 : Int) ∈ s := by
    rcases List.contains_iff_exists_mem_beq.mp h with ⟨x, hx, hbeq⟩
    have hx0 : (0 : Int) = x := eq_of_beq hbeq
    rwa [hx0]
  rcases List.mem_iff_get.mp h0 with ⟨⟨i, hi⟩, hget⟩
  have hmem : i ∈ availableMoves s :=
    mem_availableMoves.mpr ⟨hi, by rw [List.getD_eq_getElem s 0 hi, ← hget]; rfl⟩
  intro hnil
  rw [hnil] at hmem
  cases hmem

/-! ### Cell updates and the count of empty cells -/

lemma getD_set_self : ∀ (l : List Int) (m : Nat) (c : Int), m < l.length →
    (l.set m c).getD m 0 = c := by
  intro l
  induction l with
  | nil => intro m c hm; simp at hm
  | cons x xs ih =>
    intro m c hm
    cases m with
    | zero => rfl
    | succ m =>
      have hm2 : m < xs.length := Nat.lt_of_succ_lt_succ hm
      simpa [List.set, List.getD] using ih m c hm2

lemma getD_set_ne : ∀ (l : List Int) (m i : Nat) (c : Int), i ≠ m →
    (l.set m c).getD i 0 = l.getD i 0 := by
  intro l
  induction l with
  | nil => intro m i c _; rfl
  | cons x xs ih =>
    intro m i c hne
    cases m with
    | zero =>
      cases i with
      | zero => exact absurd rfl hne
      | succ i => rfl
    | succ m =>
      cases i with
      | zero => rfl
      | succ i =>
        have : i ≠ m := fun hh => hne (by rw [hh])
        simpa [List.set, List.getD] using ih m i c this

lemma length_filter_range_succ (p : Nat → Bool) (n : Nat) :
    ((List.range (n + 1)).filter p).length
      = ((List.range n).filter p).length + (if p n then 1 else 0) := by
  rw [List.range_succ, List.filter_append]
  by_cases h : p n = true
  · simp [List.filter, h]
  · simp [List.filter, h]

lemma length_filter_range_flip (p q : Nat → Bool) :
    ∀ (n m : Nat), m < n → (∀ i, i ≠ m → q i = p i) → p m = true → q m = false →
    ((List.range n).filter q).length + 1 = ((List.range n).filter p).length := by
  intro n
  induction n with
  | zero => intro m hm; omega
  | succ n ih =>
    intro m hm hagree hp hq
    rw [length_filter_range_succ p n, length_filter_range_succ q n]
    rcases Nat.lt_succ_iff_lt_or_eq.mp hm with h | h
    · have hth := ih m h hagree hp hq
      have hqp : q n = p n := hagree n (by omega)
      rw [hqp]
      omega
    · subst h
      have heq : (List.range m).filter q = (List.range m).filter p := by
        apply List.filter_congr
        intro i hi
        exact hagree i (by have := List.mem_range.mp hi; omega)
      rw [heq, hp, hq]
      simp

lemma availableMoves_set_length {s : BoardState} {m : Nat} {c : Int}
    (hm : m < s.length) (hz : s.getD m 0 = 0) (hc : c ≠ 0) :
    (availableMoves (s.set m c)).length + 1 = (availableMoves s).length := by
  have hlen : (s.set m c).length = s.length := List.length_set s m c
  rw [availableMoves, availableMoves, hlen]
  apply length_filter_range_flip
    (fun i => s.getD i 0 == 0) (fun i => (s.set m c).getD i 0 == 0) s.length m hm
  · intro i hi
    show ((s.set m c).getD i 0 == 0) = ((s.getD i 0 == 0))
    rw [getD_set_ne s m i c hi]
  · show (s.getD m 0 == 0) = true
    exact beq_iff_eq.mpr hz
  · show ((s.set m c).getD m 0 == 0) = false
    rw [getD_set_self s m c hm]
    exact beq_eq_false_iff_ne.mpr hc

/-! ### Lemmas about the winner scan -/

lemma contains_zero_iff {s : BoardState} : s.contains 0 = true ↔ (0 : Int) ∈ s :=
  List.elem_iff

lemma scanLines_eq_none_iff (s : BoardState) :
    ∀ (L : List (List Nat)), scanLines s L = none ↔
      ∀ l ∈ L, lineAll s l 1 = false ∧ lineAll s l (-1) = false := by
  intro L
  induction L with
  | nil => simp [scanLines]
  | cons l ls ih =>
    cases h1 : lineAll s l 1 with
    | true => simp [scanLines, h1]
    | false =>
      cases h2 : lineAll s l (-1) with
      | true => simp [scanLines, h1, h2]
      | false =>
        simp only [scanLines, h1, h2, Bool.false_eq_true, if_false]
        rw [ih]
        constructor
        · intro hall l2 hl2
          rcases List.mem_cons.mp hl2 with h | h
          · subst h; exact ⟨h1, h2⟩
          · exact hall l2 h
        · intro hall l2 hl2
          exact hall l2 (List.mem_cons_of_mem l hl2)

lemma scanLines_some_values (s : BoardState) :
    ∀ (L : List (List Nat)) (v : Int), scanLines s L = some v → v = 1 ∨ v = -1 := by
  intro L
  induction L with
  | nil => intro v h; simp [scanLines] at h
  | cons l ls ih =>
    intro v h
    cases h1 : lineAll s l 1 with
    | true =>
      simp [scanLines, h1] at h
      exact Or.inl h.symm
    | false =>
      cases h2 : lineAll s l (-1) with
      | true =>
        simp [scanLines, h1, h2] at h
        exact Or.inr h.symm
      | false =>
        simp only [scanLines, h1, h2, Bool.false_eq_true, if_false] at h
        exact ih v h

lemma scanLines_first_A (s : BoardState) :
    ∀ (L : List (List Nat)), (∀ l ∈ L, lineAll s l (-1) = false) →
      (∃ l ∈ L, lineAll s l 1 = true) → scanLines s L = some 1 := by
  intro L
  induction L with
  | nil => intro _ hex; rcases hex with ⟨l, hl, _⟩; cases hl
  | cons l ls ih =>
    intro hnoB hex
    cases h1 : lineAll s l 1 with
    | true => simp [scanLines, h1]
    | false =>
      have h2 : lineAll s l (-1) = false := hnoB l (List.mem_cons_self l ls)
      simp only [scanLines, h1, h2, Bool.false_eq_true, if_false]
      apply ih
      · exact fun l2 hl2 => hnoB l2 (List.mem_cons_of_mem l hl2)
      · rcases hex with ⟨l2, hl2, hall⟩
        rcases List.mem_cons.mp hl2 with h | h
        · subst h; rw [h1] at hall; cases hall
        · exact ⟨l2, h, hall⟩

lemma scanLines_first_B (s : BoardState) :
    ∀ (L : List (List Nat)), (∀ l ∈ L, lineAll s l 1 = false) →
      (∃ l ∈ L, lineAll s l (-1) = true) → scanLines s L = some (-1) := by
  intro L
  induction L with
  | nil => intro _ hex; rcases hex with ⟨l, hl, _⟩; cases hl
  | cons l ls ih =>
    intro hnoA hex
    have h1 : lineAll s l 1 = false := hnoA l (List.mem_cons_self l ls)
    cases h2 : lineAll s l (-1) with
    | true => simp [scanLines, h1, h2]
    | false =>
      simp only [scanLines, h1, h2, Bool.false_eq_true, if_false]
      apply ih
      · exact fun l2 hl2 => hnoA l2 (List.mem_cons_of_mem l hl2)
      · rcases hex with ⟨l2, hl2, hall⟩
        rcases List.mem_cons.mp hl2 with h | h
        · subst h; rw [h2] at hall; cases hall
        · exact ⟨l2, h, hall⟩

lemma hasLine_iff {s : BoardState} {p : Int} :
    hasLine s p = true ↔ ∃ l ∈ linesList, lineAll s l p = true := by
  simp [hasLine, List.any_eq_true]

lemma hasLine_false_iff {s : BoardState} {p : Int} :
    hasLine s p = false ↔ ∀ l ∈ linesList, lineAll s l p = false := by
  simp [hasLine, List.any_eq_false]

lemma check_winner_A {s : BoardState} (hA : hasLine s 1 = true)
    (hB : hasLine s (-1) = false) : check_winner s = some 1 := by
  rw [check_winner, scanLines_first_A s linesList
    (hasLine_false_iff.mp hB) (hasLine_iff.mp hA)]

lemma check_winner_B {s : BoardState} (hB : hasLine s (-1) = true)
    (hA : hasLine s 1 = false) : check_winner s = some (-1) := by
  rw [check_winner, scanLines_first_B s linesList
    (hasLine_false_iff.mp hA) (hasLine_iff.mp hB)]

lemma scanLines_eq_none_of_noLines {s : BoardState} (hA : hasLine s 1 = false)
    (hB : hasLine s (-1) = false) : scanLines s linesList = none :=
  (scanLines_eq_none_iff s linesList).mpr
    (fun l hl => ⟨hasLine_false_iff.mp hA l hl, hasLine_false_iff.mp hB l hl⟩)

lemma noLines_of_scanLines_eq_none {s : BoardState}
    (h : scanLines s linesList = none) :
    hasLine s 1 = false ∧ hasLine s (-1) = false := by
  have hlines := (scanLines_eq_none_iff s linesList).mp h
  refine ⟨hasLine_false_iff.mpr ?_, hasLine_false_iff.mpr ?_⟩
  · exact fun l hl => (hlines l hl).1
  · exact fun l hl => (hlines l hl).2

lemma check_winner_draw_iff {s : BoardState} :
    check_winner s = some 0 ↔
      (s.contains 0 = false ∧ hasLine s 1 = false ∧ hasLine s (-1) = false) := by
  rw [check_winner]
  cases hscan : scanLines s linesList with
  | none =>
    have hnl := noLines_of_scanLines_eq_none hscan
    cases hc : s.contains 0 with
    | true => simp
    | false => simp [hnl.1, hnl.2]
  | some v =>
    constructor
    · intro h
      rcases scanLines_some_values s linesList v hscan with hv | hv <;>
        (subst hv; exact absurd (Option.some.inj h) (by norm_num))
    · rintro ⟨_, hA, hB⟩
      rw [scanLines_eq_none_of_noLines hA hB] at hscan
      cases hscan

lemma check_winner_none_iff {s : BoardState} :
    check_winner s = none ↔
      (s.contains 0 = true ∧ hasLine s 1 = false ∧ hasLine s (-1) = false) := by
  rw [check_winner]
  cases hscan : scanLines s linesList with
  | none =>
    have hnl := noLines_of_scanLines_eq_none hscan
    cases hc : s.contains 0 with
    | true => simp [hnl.1, hnl.2]
    | false => simp
  | some v =>
    constructor
    · intro h; cases h
    · rintro ⟨_, hA, hB⟩
      rw [scanLines_eq_none_of_noLines hA hB] at hscan
      cases hscan

lemma check_winner_some_values {s : BoardState} {v : Int}
    (h : check_winner s = some v) : v = 1 ∨ v = -1 ∨ v = 0 := by
  rw [check_winner] at h
  cases hscan : scanLines s linesList with
  | none =>
    rw [hscan] at h
    cases hc : s.contains 0 with
    | true =>
      simp [hc] at h
      omega
    | false =>
      simp [hc] at h
      omega
  | some w =>
    rw [hscan] at h
    rcases scanLines_some_values s linesList w hscan with hw | hw <;>
      subst hw
    · exact Or.inl (Option.some.inj h).symm
    · exact Or.inr (Or.inl (Option.some.inj h).symm)

lemma check_winner_none_avail {s : BoardState} (h : check_winner s = none) :
    availableMoves s ≠ [] :=
  availableMoves_nonempty (check_winner_none_iff.mp h).1

/-! ### Lemmas about greedy action selection -/

lemma zip_map_filter_fst (f : Nat → ℚ) (p : ℚ → Bool) :
    ∀ (l : List Nat),
      ((l.zip (l.map f)).filter (fun x => p x.2)).map Prod.fst
        = l.filter (fun a => p (f a)) := by
  intro l
  induction l with
  | nil => rfl
  | cons a l ih =>
    show (((a, f a) :: l.zip (l.map f)).filter (fun x => p x.2)).map Prod.fst
      = (a :: l).filter (fun a2 => p (f a2))
    cases hp : p (f a) with
    | true => simp only [List.filter_cons, hp, if_pos, List.map_cons, ih]
    | false => simp only [List.filter_cons, hp, Bool.false_eq_true, if_false, ih]

lemma bestActions_eq_filter (t : QTable) (skey : StateKey) (avail : List Nat) :
    bestActions t skey avail
      = avail.filter (fun a => qget t (skey, a) == maxList (qValues t skey avail)) := by
  rw [bestActions, qValues]
  exact zip_map_filter_fst (fun a => qget t (skey, a))
    (fun q => q == maxList (qValues t skey avail)) avail

lemma mem_bestActions_iff {t : QTable} {skey : StateKey} {avail : List Nat} {a : Nat} :
    a ∈ bestActions t skey avail
      ↔ a ∈ avail ∧ qget t (skey, a) = maxList (qValues t skey avail) := by
  rw [bestActions_eq_filter]
  simp [List.mem_filter]

lemma maxList_attained {t : QTable} {skey : StateKey} {avail : List Nat}
    (h : avail ≠ []) :
    ∃ a ∈ avail, qget t (skey, a) = maxList (qValues t skey avail) := by
  have hne : qValues t skey avail ≠ [] := by
    rw [qValues]
    intro hnil
    exact h (List.map_eq_nil_iff.mp hnil)
  have hmem := maxList_mem hne
  rw [qValues] at hmem
  rcases List.mem_map.mp hmem with ⟨a, ha, heq⟩
  exact ⟨a, ha, heq⟩

lemma le_maxList_of_mem {t : QTable} {skey : StateKey} {avail : List Nat} {a : Nat}
    (ha : a ∈ avail) : qget t (skey, a) ≤ maxList (qValues t skey avail) := by
  apply le_maxList
  rw [qValues]
  exact List.mem_map.mpr ⟨a, ha, rfl⟩

lemma bestActions_nonempty {t : QTable} {skey : StateKey} {avail : List Nat}
    (h : avail ≠ []) : bestActions t skey avail ≠ [] := by
  rcases @maxList_attained t skey avail h with ⟨a, ha, heq⟩
  intro hnil
  have : a ∈ bestActions t skey avail := mem_bestActions_iff.mpr ⟨ha, heq⟩
  rw [hnil] at this
  cases this

lemma bestActions_nodup {t : QTable} {skey : StateKey} {avail : List Nat}
    (h : avail.Nodup) : (bestActions t skey avail).Nodup := by
  rw [bestActions_eq_filter]
  exact h.filter _

lemma chooseAction_greedy {t : QTable} {epsilon : ℚ} {skey : StateKey}
    {avail : List Nat} {training : Bool} {u : ℚ} {k : Nat}
    (hmode : training = false ∨ epsilon = 0) (hu : 0 ≤ u) :
    chooseAction t epsilon skey avail training u k
      = randChoice (bestActions t skey avail) k := by
  rw [chooseAction, if_neg]
  rintro ⟨htr, hlt⟩
  rcases hmode with h | h
  · rw [htr] at h; cases h
  · rw [h] at hlt; exact absurd hlt (not_lt.mpr hu)

/-! ### Termination of the episode loop -/

lemma playLoop_terminates (chooseX chooseO : Nat → BoardState → List Nat → Nat)
    (hx : ∀ t s, availableMoves s ≠ [] →
      chooseX t s (availableMoves s) ∈ availableMoves s)
    (ho : ∀ t s, availableMoves s ≠ [] →
      chooseO t s (availableMoves s) ∈ availableMoves s) :
    ∀ (fuel step : Nat) (board : BoardState) (cp : Int),
      (cp = 1 ∨ cp = -1) → check_winner board = none →
      (availableMoves board).length ≤ fuel →
      ∃ w, playLoop chooseX chooseO fuel step board cp = some w
        ∧ (w = 1 ∨ w = -1 ∨ w = 0) := by
  intro fuel
  induction fuel with
  | zero =>
    intro step board cp _ hnone hle
    have hne := check_winner_none_avail hnone
    have : 0 < (availableMoves board).length := List.length_pos.mpr hne
    omega
  | succ fuel ih =>
    intro step board cp hcp hnone hle
    have hne := check_winner_none_avail hnone
    set action := (if cp = 1 then chooseX else chooseO) step board (availableMoves board)
      with haction
    have hmem : action ∈ availableMoves board := by
      rcases hcp with h | h <;> rw [haction, h]
      · simpa using hx step board hne
      · have : (-1 : Int) ≠ 1 := by norm_num
        simpa [this] using ho step board hne
    have hlt : action < board.length := (mem_availableMoves.mp hmem).1
    have hzero : board.getD action 0 = 0 := (mem_availableMoves.mp hmem).2
    have hcp0 : cp ≠ 0 := by rcases hcp with h | h <;> (rw [h]; norm_num)
    have hcount := availableMoves_set_length hlt hzero hcp0
    rw [playLoop]
    cases hw : check_winner (board.set action cp) with
    | some w =>
      exact ⟨w, rfl, check_winner_some_values hw⟩
    | none =>
      have hcp2 : (-cp = 1 ∨ -cp = -1) := by omega
      have hle2 : (availableMoves (board.set action cp)).length ≤ fuel := by omega
      rcases ih (step + 1) (board.set action cp) (-cp) hcp2 hw hle2 with ⟨w, hrun, hwv⟩
      exact ⟨w, hrun, hwv⟩

/-! ### Claim theorems -/

/-- C1 (code-bug evidence): when a SARSA agent's move ends the game
(here: SARSA as X plays cell 2 on `[1,1,0,-1,-1,0,0,0,0]`, producing
the winning board `[1,1,1,-1,-1,0,0,0,0]` with reward 1 to X), the
driver's learning-update block leaves the agent — in particular its
q-table — completely unchanged, because the dispatch guards the SARSA
branch with `and not done`; had `SARSAAgent.update` been called with
`done=true` as the spec states, the entry for the played pair would
have become `old + alpha * (reward - old) = 1/10 ≠ 0`. -/
theorem claim_C1_sarsa_terminal_update_skipped :
    check_winner [1,1,1,-1,-1,0,0,0,0] = some 1
    ∧ stepRewards (check_winner [1,1,1,-1,-1,0,0,0,0]) = (1, -1)
    ∧ (∀ (u : ℚ) (k : Nat),
        driverLearnStep (.sarsa ⟨emptyQTable, 1/10, 9/10, 1/5⟩)
          [1,1,0,-1,-1,0,0,0,0] 2 1 [1,1,1,-1,-1,0,0,0,0] true u k
        = .sarsa ⟨emptyQTable, 1/10, 9/10, 1/5⟩)
    ∧ qget ((SARSAAgent.update ⟨emptyQTable, 1/10, 9/10, 1/5⟩
        [1,1,0,-1,-1,0,0,0,0] 2 1 [1,1,1,-1,-1,0,0,0,0] 0 true).q_table)
        ([1,1,0,-1,-1,0,0,0,0], 2) = 1/10 := by
  refine ⟨by decide, by decide, fun u k => rfl, ?_⟩
  simp [SARSAAgent.update, qget, qset, emptyQTable]

/-- C2: for every Q-Learning `update` call with `done=false`, the new
table entry at `(state, action)` equals
`old + alpha * ((reward + gamma * M) - old)` where `M` is the maximum
of the table values of `next_state` over ALL nine cell indices 0–8
(legal or not, unseen keys defaulting to 0); with `done=true` the
target is just `reward`; and no other table entry changes. -/
theorem claim_C2_qlearning_update_rule (ag : QLearningAgent) (state : StateKey)
    (action : Nat) (reward : ℚ) (next_state : StateKey) :
    (∃ M : ℚ,
      (∀ a2, a2 < 9 → qget ag.q_table (next_state, a2) ≤ M)
      ∧ (∃ a2, a2 < 9 ∧ qget ag.q_table (next_state, a2) = M)
      ∧ qget (ag.update state action reward next_state false).q_table (state, action)
          = qget ag.q_table (state, action)
            + ag.alpha * ((reward + ag.gamma * M) - qget ag.q_table (state, action)))
    ∧ qget (ag.update state action reward next_state true).q_table (state, action)
        = qget ag.q_table (state, action)
          + ag.alpha * (reward - qget ag.q_table (state, action))
    ∧ (∀ (done : Bool) (key : QKey), key ≠ (state, action) →
        qget (ag.update state action reward next_state done).q_table key
          = qget ag.q_table key) := by
  refine ⟨⟨maxList ((List.range 9).map (fun a => qget ag.q_table (next_state, a))),
    ?_, ?_, ?_⟩, ?_, ?_⟩
  · intro a2 ha2
    exact le_maxList (List.mem_map.mpr ⟨a2, List.mem_range.mpr ha2, rfl⟩)
  · have hne : (List.range 9).map (fun a => qget ag.q_table (next_state, a)) ≠ [] := by
      simp [List.range_succ]
    rcases List.mem_map.mp (maxList_mem hne) with ⟨a2, ha2, heq⟩
    exact ⟨a2, List.mem_range.mp ha2, heq⟩
  · simp [QLearningAgent.update, qget, qset]
  · simp [QLearningAgent.update, qget, qset]
  · intro done key hkey
    simp [QLearningAgent.update, qget, qset, Function.update_noteq hkey]

/-- C2 witness: a concrete `done=true` update leaves the entry at a
different key untouched. -/
theorem claim_C2_qlearning_update_rule_witness :
    qget ((QLearningAgent.mk emptyQTable (1/10) (9/10) (1/5)).update
        [0,0,0,0,0,0,0,0,0] 0 1 [1,0,0,0,0,0,0,0,0] true).q_table
      ([0,0,0,0,0,0,0,0,0], 5) = 0 :=
  (claim_C2_qlearning_update_rule ⟨emptyQTable, 1/10, 9/10, 1/5⟩
    [0,0,0,0,0,0,0,0,0] 0 1 [1,0,0,0,0,0,0,0,0]).2.2 true
    ([0,0,0,0,0,0,0,0,0], 5) (by decide)

/-- C3: the driver's reward pair is `(1/2, 1/2)` on a terminal draw,
`(1, -1)` when X wins, `(-1, 1)` when O wins and `(0, 0)` on a
non-terminal step; the rewards sum to 1 on a draw and to 0 when either
side wins. -/
theorem claim_C3_reward_assignment (s : BoardState) :
    (check_winner s = some 0 →
      stepRewards (check_winner s) = (1/2, 1/2)
      ∧ (stepRewards (check_winner s)).1 + (stepRewards (check_winner s)).2 = 1)
    ∧ (check_winner s = some 1 →
      stepRewards (check_winner s) = (1, -1)
      ∧ (stepRewards (check_winner s)).1 + (stepRewards (check_winner s)).2 = 0)
    ∧ (check_winner s = some (-1) →
      stepRewards (check_winner s) = (-1, 1)
      ∧ (stepRewards (check_winner s)).1 + (stepRewards (check_winner s)).2 = 0)
    ∧ (check_winner s = none → stepRewards (check_winner s) = (0, 0)) := by
  refine ⟨?_, ?_, ?_, ?_⟩ <;> intro h <;> rw [h] <;> norm_num [stepRewards]

/-- C3 witness: the X-wins case at a concrete terminal board. -/
theorem claim_C3_reward_assignment_witness :
    stepRewards (check_winner [1,1,1,-1,-1,0,0,0,0]) = (1, -1)
    ∧ (stepRewards (check_winner [1,1,1,-1,-1,0,0,0,0])).1
      + (stepRewards (check_winner [1,1,1,-1,-1,0,0,0,0])).2 = 0 :=
  (claim_C3_reward_assignment [1,1,1,-1,-1,0,0,0,0]).2.1 (by decide)

/-- C4 counterexample: on the board `[-1,-1,-1, 1,1,1, 0,0,0]` some
line (row 1) is all PlayerA, yet `check_winner` returns `some (-1)`
(PlayerB wins), because the all-PlayerB row 0 is scanned first — so
"returns PlayerA-wins if some line is all PlayerA" is false as a
statement about every board state. -/
theorem claim_C4_counterexample :
    hasLine [-1,-1,-1,1,1,1,0,0,0] 1 = true
    ∧ check_winner [-1,-1,-1,1,1,1,0,0,0] = some (-1)
    ∧ check_winner [-1,-1,-1,1,1,1,0,0,0] ≠ some 1 := by decide

/-- C4 (amended): `check_winner` returns PlayerA-wins when some line is
all PlayerA and none is all PlayerB, PlayerB-wins when some line is all
PlayerB and none is all PlayerA (when both players own complete lines —
impossible in legal play — the first complete line in row/column/
diagonal order decides), Draw exactly when no Empty cell remains and no
line is complete, and ongoing (`none`) exactly when an Empty cell
remains and no line is complete; in particular every full board with no
three-in-a-row yields Draw. -/
theorem claim_C4_check_winner_cases (s : BoardState) :
    (hasLine s 1 = true → hasLine s (-1) = false → check_winner s = some 1)
    ∧ (hasLine s (-1) = true → hasLine s 1 = false → check_winner s = some (-1))
    ∧ (check_winner s = some 0 ↔
        (s.contains 0 = false ∧ hasLine s 1 = false ∧ hasLine s (-1) = false))
    ∧ (check_winner s = none ↔
        (s.contains 0 = true ∧ hasLine s 1 = false ∧ hasLine s (-1) = false)) :=
  ⟨fun hA hB => check_winner_A hA hB,
   fun hB hA => check_winner_B hB hA,
   check_winner_draw_iff,
   check_winner_none_iff⟩

/-- C4 witness: a full board with no three-in-a-row is a Draw, and a
board whose only complete line belongs to PlayerA is a PlayerA win. -/
theorem claim_C4_check_winner_cases_witness :
    check_winner [0,0,0,0,0,0,1,1,1] = some 1
    ∧ check_winner [1,1,-1,-1,-1,1,1,-1,1] = some 0 :=
  ⟨(claim_C4_check_winner_cases [0,0,0,0,0,0,1,1,1]).1 (by decide) (by decide),
   (claim_C4_check_winner_cases [1,1,-1,-1,-1,1,1,-1,1]).2.2.1.mpr (by decide)⟩

/-- C6 counterexample: a Q-Learning agent with epsilon = 2 and a SARSA
agent with epsilon = -1 (both outside [0,1]) are constructed without
any error, and a `Trainer` with zero episodes is constructed without
any error — no ConfigurationError-style rejection happens at
configuration time. -/
theorem claim_C6_counterexample :
    (QLearningAgent.init (1/10) (9/10) 2).isOk = true
    ∧ (SARSAAgent.init (1/10) (9/10) (-1)).isOk = true
    ∧ (Trainer.init .nonlearning .nonlearning 0 500).isOk = true :=
  ⟨rfl, rfl, rfl⟩

/-- C6 (amended): no configuration-time validation exists: the
`QLearningAgent`, `SARSAAgent` and `Trainer` constructors accept every
parameter value — zero episodes and epsilon outside [0,1] included —
and always succeed, storing the parameters unchanged (with an empty
q-table for the agents). -/
theorem claim_C6_no_validation (alpha gamma epsilon : ℚ) (ax ao : AgentState)
    (episodes checkpoint_interval : Nat) :
    (∃ ag, QLearningAgent.init alpha gamma epsilon = .ok ag
      ∧ ag.alpha = alpha ∧ ag.gamma = gamma ∧ ag.epsilon = epsilon
      ∧ ag.q_table = emptyQTable)
    ∧ (∃ ag, SARSAAgent.init alpha gamma epsilon = .ok ag
      ∧ ag.alpha = alpha ∧ ag.gamma = gamma ∧ ag.epsilon = epsilon
      ∧ ag.q_table = emptyQTable)
    ∧ (∃ tr, Trainer.init ax ao episodes checkpoint_interval = .ok tr
      ∧ tr.episodes = episodes ∧ tr.checkpoint_interval = checkpoint_interval) :=
  ⟨⟨_, rfl, rfl, rfl, rfl, rfl⟩, ⟨_, rfl, rfl, rfl, rfl, rfl⟩, ⟨_, rfl, rfl, rfl⟩⟩

/-- C7: applying a move to an occupied cell fails with the
IllegalMoveError (`ValueError`) and leaves the board exactly unchanged;
applying a move to an Empty cell succeeds, writes `current_player` into
exactly that cell (every other cell unchanged, length preserved) and
flips the turn. -/
theorem claim_C7_make_move (b : Board) (m : Nat) (hm : m < b.state.length) :
    (b.state.getD m 0 ≠ 0 →
      b.make_move m = (some "Invalid move: cell already occupied.", b))
    ∧ (b.state.getD m 0 = 0 →
      (b.make_move m).1 = none
      ∧ (b.make_move m).2.state.getD m 0 = b.current_player
      ∧ (∀ i, i ≠ m → (b.make_move m).2.state.getD i 0 = b.state.getD i 0)
      ∧ (b.make_move m).2.state.length = b.state.length
      ∧ (b.make_move m).2.current_player = -b.current_player) := by
  constructor
  · intro h
    rw [Board.make_move, if_pos (by simpa using h)]
  · intro h
    have hcond : ¬((b.state.getD m 0 != 0) = true) := by
      rw [bne_iff_ne]
      exact fun hne => hne h
    refine ⟨?_, ?_, ?_, ?_, ?_⟩
    · rw [Board.make_move, if_neg hcond]
    · rw [Board.make_move, if_neg hcond]
      exact getD_set_self b.state m b.current_player hm
    · intro i hi
      rw [Board.make_move, if_neg hcond]
      exact getD_set_ne b.state m i b.current_player hi
    · rw [Board.make_move, if_neg hcond]
      exact List.length_set b.state m b.current_player
    · rw [Board.make_move, if_neg hcond]

/-- C7 witness: the occupied-cell case at a concrete board. -/
theorem claim_C7_make_move_witness :
    Board.make_move ⟨[1,0,0,0,0,0,0,0,0], -1⟩ 0
      = (some "Invalid move: cell already occupied.", ⟨[1,0,0,0,0,0,0,0,0], -1⟩) :=
  (claim_C7_make_move ⟨[1,0,0,0,0,0,0,0,0], -1⟩ 0 (by decide)).1 (by decide)

/-- C5: with exploration off (`training=false`, or epsilon = 0, given
`random.uniform` draws `u ≥ 0`) and a non-empty legal-move list,
`choose_action` returns a legal move whose table value attains the
maximum over the legal moves; a unique maximizer is returned
deterministically (for every random draw `k`); and the candidate list
handed to `random.choice` is exactly the duplicate-free tie set of
maximizers, so the tied case is a uniform draw over the tie set.  The
`QLearningAgent` and `SARSAAgent` methods are both this function. -/
theorem claim_C5_greedy_choice (t : QTable) (epsilon : ℚ) (skey : StateKey)
    (avail : List Nat) (training : Bool) (u : ℚ) (k : Nat)
    (hne : avail ≠ []) (hu : 0 ≤ u) (hmode : training = false ∨ epsilon = 0) :
    (chooseAction t epsilon skey avail training u k ∈ avail
      ∧ ∀ a ∈ avail, qget t (skey, a)
          ≤ qget t (skey, chooseAction t epsilon skey avail training u k))
    ∧ (∀ m ∈ avail, (∀ a ∈ avail, a ≠ m → qget t (skey, a) < qget t (skey, m)) →
        chooseAction t epsilon skey avail training u k = m)
    ∧ (∀ a, a ∈ bestActions t skey avail
        ↔ a ∈ avail ∧ qget t (skey, a) = maxList (qValues t skey avail))
    ∧ (avail.Nodup → (bestActions t skey avail).Nodup)
    ∧ (∀ ag : QLearningAgent, ag.choose_action skey avail training u k
        = chooseAction ag.q_table ag.epsilon skey avail training u k)
    ∧ (∀ ag : SARSAAgent, ag.choose_action skey avail training u k
        = chooseAction ag.q_table ag.epsilon skey avail training u k) := by
  have hgr := @chooseAction_greedy t epsilon skey avail training u k hmode hu
  have hbne := @bestActions_nonempty t skey avail hne
  have hmemB : chooseAction t epsilon skey avail training u k
      ∈ bestActions t skey avail := by
    rw [hgr]
    exact randChoice_mem hbne k
  have hmem := mem_bestActions_iff.mp hmemB
  refine ⟨⟨hmem.1, ?_⟩, ?_, fun a => mem_bestActions_iff, bestActions_nodup,
    fun ag => rfl, fun ag => rfl⟩
  · intro a ha
    rw [hmem.2]
    exact le_maxList_of_mem ha
  · intro m hm hstrict
    have hall : ∀ x ∈ bestActions t skey avail, x = m := by
      intro x hx
      rcases mem_bestActions_iff.mp hx with ⟨hxa, hxq⟩
      by_contra hxm
      have h1 : qget t (skey, x) < qget t (skey, m) := hstrict x hxa hxm
      have h2 : qget t (skey, m) ≤ maxList (qValues t skey avail) :=
        le_maxList_of_mem hm
      rw [hxq] at h1
      exact absurd h2 (not_le.mpr h1)
    rw [hgr]
    exact randChoice_const hbne hall k

/-- C5 witness: epsilon = 0 and a table with a unique maximum at action
1 over the legal moves `[0, 1]` returns action 1, for an arbitrary
random draw. -/
theorem claim_C5_greedy_choice_witness :
    chooseAction (qset emptyQTable ([], 1) 1) 0 [] [0, 1] false 0 7 = 1 :=
  ((claim_C5_greedy_choice (qset emptyQTable ([], 1) 1) 0 [] [0, 1] false 0 7
      (by decide) (le_refl 0) (Or.inl rfl)).2.1) 1 (by decide)
    (by
      intro a ha hne2
      fin_cases ha
      · decide
      · exact absurd rfl hne2)

/-- C8: `available_moves` returns exactly the indices of Empty cells,
and a successful `make_move` (empty target cell, current player
non-zero as it always is, being 1 or -1) decreases the number of legal
moves by exactly one. -/
theorem claim_C8_available_moves (s : BoardState) (b : Board) (m : Nat) :
    (∀ i, i ∈ availableMoves s ↔ (i < s.length ∧ s.getD i 0 = 0))
    ∧ b.available_moves = availableMoves b.state
    ∧ (m < b.state.length → b.state.getD m 0 = 0 → b.current_player ≠ 0 →
        (b.make_move m).1 = none
        ∧ ((b.make_move m).2.available_moves).length + 1
            = b.available_moves.length) := by
  refine ⟨fun i => mem_availableMoves, rfl, ?_⟩
  intro hm hz hcp
  have hcond : ¬((b.state.getD m 0 != 0) = true) := by
    rw [bne_iff_ne]
    exact fun hne => hne hz
  constructor
  · rw [Board.make_move, if_neg hcond]
  · rw [Board.make_move, if_neg hcond]
    exact availableMoves_set_length hm hz hcp

/-- C8 witness: the opening move from the fresh board takes the count
of legal moves from 9 to 8. -/
theorem claim_C8_available_moves_witness :
    ((Board.reset.make_move 4).2.available_moves).length + 1
      = Board.reset.available_moves.length :=
  ((claim_C8_available_moves [] Board.reset 4).2.2
    (by decide) (by decide) (by decide)).2

/-- C9: the Scripted agent applies its rules in strict priority order:
a move completing an own line is returned whenever one exists; a move
blocking the opponent is returned when no win exists; the centre is
returned when neither exists and cell 4 is available; in particular on
`[1,1,0,-1,-1,0,0,0,0]` every random draw returns move 2 (the win, not
the block at 5), and on `[1,0,0,-1,-1,0,0,0,0]` every draw returns
move 5 (the block). -/
theorem claim_C9_scripted_priority :
    (∀ k, scripted_choose_action [1,1,0,-1,-1,0,0,0,0]
        (availableMoves [1,1,0,-1,-1,0,0,0,0]) k = 2)
    ∧ (∀ k, scripted_choose_action [1,0,0,-1,-1,0,0,0,0]
        (availableMoves [1,0,0,-1,-1,0,0,0,0]) k = 5)
    ∧ (∀ s avail k m, can_win s 1 = some m →
        scripted_choose_action s avail k = m.1 * 3 + m.2)
    ∧ (∀ s avail k m, can_win s 1 = none → can_win s (-1) = some m →
        scripted_choose_action s avail k = m.1 * 3 + m.2)
    ∧ (∀ s avail k, can_win s 1 = none → can_win s (-1) = none → 4 ∈ avail →
        scripted_choose_action s avail k = 4) := by
  refine ⟨fun _ => rfl, fun _ => rfl, ?_, ?_, ?_⟩
  · intro s avail k m h
    simp [scripted_choose_action, h]
  · intro s avail k m h1 h2
    simp [scripted_choose_action, h1, h2]
  · intro s avail k h1 h2 h4
    simp [scripted_choose_action, h1, h2, h4]

/-- C9 witness: the block rule at a concrete board whose only
completion is the opponent's (O can complete the bottom row at cell
8). -/
theorem claim_C9_scripted_priority_witness :
    scripted_choose_action [0,0,0,0,0,0,-1,-1,0] [8] 3 = 8 :=
  claim_C9_scripted_priority.2.2.2.1 [0,0,0,0,0,0,-1,-1,0] [8] 3 (2, 2)
    (by decide) (by decide)

/-- C10: for any pair of agents that always return a legal move,
`play_game` terminates from the fresh empty board — each iteration
fills exactly one Empty cell, so the loop runs at most 9 iterations
(fuel 9 suffices) — and returns a value in {+1, -1, 0}. -/
theorem claim_C10_play_game_terminates
    (chooseX chooseO : Nat → BoardState → List Nat → Nat)
    (hx : ∀ t s, availableMoves s ≠ [] →
      chooseX t s (availableMoves s) ∈ availableMoves s)
    (ho : ∀ t s, availableMoves s ≠ [] →
      chooseO t s (availableMoves s) ∈ availableMoves s) :
    ∃ w, play_game chooseX chooseO = some w ∧ (w = 1 ∨ w = -1 ∨ w = 0) :=
  playLoop_terminates chooseX chooseO hx ho 9 0 (List.replicate 9 0) 1
    (Or.inl rfl) (by decide) (by decide)

/-- The first-available-move agent always returns a legal move. -/
lemma firstMoveChoice_legal : ∀ (t : Nat) (s : BoardState),
    availableMoves s ≠ [] →
    firstMoveChoice t s (availableMoves s) ∈ availableMoves s := by
  intro t s h
  cases hs : availableMoves s with
  | nil => exact absurd hs h
  | cons a l => simp [firstMoveChoice, hs]

/-- C10 witness: two concrete legal agents (always the first available
move); the game ends inside the fuel bound with X winning. -/
theorem claim_C10_play_game_terminates_witness :
    play_game firstMoveChoice firstMoveChoice = some 1
    ∧ ∃ w, play_game firstMoveChoice firstMoveChoice = some w
        ∧ (w = 1 ∨ w = -1 ∨ w = 0) :=
  ⟨by decide, claim_C10_play_game_terminates firstMoveChoice firstMoveChoice
    firstMoveChoice_legal firstMoveChoice_legal⟩
